import Mathlib

/-
Verification of the course-evaluation analysis program (evals/analyze_evals.py).

The program is embedded shallowly:
  * a CSV row (Python dict, insertion-ordered) is an association list of
    (column name, value) pairs;
  * Python string operations are modelled on lists of characters
    (substring test = List.IsInfix, str.lower = Char.toLower, str.strip =
    dropWhile isWhitespace on both ends);
  * exact rational arithmetic stands in for Python's statistics module, which
    computes means and variances exactly before the final float conversion;
    the standard deviation is Real.sqrt of the rational sample variance;
  * the regular-expression search of parse_course_info is embedded as a
    dedicated backtracking-free matcher; for this particular pattern the
    Python engine's behaviour (leftmost start, alternation order, greedy
    mandatory-whitespace and digit runs, lazy dot-star that cannot cross a
    newline) coincides with maximal munch, which the completeness lemmas
    below make precise.
-/

set_option maxHeartbeats 1000000
set_option maxRecDepth 100000

/-- Lowercase of a string's characters, modelling the Python str.lower call. -/
def lowerChars (s : String) : List Char := s.toList.map Char.toLower

/-- Boolean substring test, modelling the Python operator (needle in hay). -/
def substrB (needle hay : List Char) : Bool := decide (needle <:+: hay)

/-- Python str.strip: remove leading and trailing whitespace. -/
def strip (s : String) : String :=
  ⟨((s.toList.dropWhile Char.isWhitespace).reverse.dropWhile Char.isWhitespace).reverse⟩

/-- LIKERT_MAP from the source: agreement categories to ordinal scores. -/
def LIKERT_MAP : List (String × ℤ) :=
  [("Strongly Agree", 5), ("Agree", 4), ("Uncertain", 3), ("Disagree", 2),
   ("Strongly Disagree", 1)]

/-- EFFECTIVENESS_MAP from the source: quality categories to ordinal scores. -/
def EFFECTIVENESS_MAP : List (String × ℤ) :=
  [("Excellent", 5), ("Very Good", 4), ("Good", 3), ("Fair", 2), ("Very Poor", 1)]

/-- QUESTION_LABELS from the source: full question text paired with its short label,
in declaration order. -/
def QUESTION_LABELS : List (String × String) :=
  [("Learning outcomes for the course were clearly stated", "Outcomes Stated"),
   ("The learning outcomes were effectively addressed in the course", "Outcomes Addressed"),
   ("There were constructive interactions between the instructor and the students", "Interactions"),
   ("The instructor was accessible for discussions about the course", "Accessible"),
   ("I received feedback that improved my learning in this course", "Feedback"),
   ("The course challenged me to do my best work", "Challenged"),
   ("My experience in the course increased my interest in the subject matter", "Interest")]

/-- The short labels in declaration order. -/
def questionLabelNames : List String := QUESTION_LABELS.map Prod.snd

/-- One survey row: an insertion-ordered association list from column name to value. -/
abbrev Record := List (String × String)

/-- The defaultdict(list) of per-label score lists, as a total function defaulting to []. -/
abbrev Ratings := String → List ℤ

/-- Appending one score to one label's list of a ratings table. -/
def ratingsAppend (r : Ratings) (label : String) (v : ℤ) : Ratings :=
  fun l => if l = label then r l ++ [v] else r l

/-- The inner loop of extract_ratings over QUESTION_LABELS, for one (column, value)
cell, generalized over the question list it walks. -/
def likertFold (qs : List (String × String)) (r : Ratings) (cv : String × String) : Ratings :=
  qs.foldl (fun acc ql =>
    if substrB ql.1.toList cv.1.toList && !substrB "_Comments".toList cv.1.toList then
      match LIKERT_MAP.lookup cv.2 with
      | some m => ratingsAppend acc ql.2 m
      | none => acc
    else acc) r

/-- The Likert branch of extract_ratings for one cell. -/
def likertStep (r : Ratings) (cv : String × String) : Ratings :=
  likertFold QUESTION_LABELS r cv

/-- The overall-effectiveness branch of extract_ratings for one cell. -/
def effStep (es : List ℤ) (cv : String × String) : List ℤ :=
  if substrB "overall effectiveness".toList (lowerChars cv.1) &&
     !substrB "_Comments".toList cv.1.toList then
    match EFFECTIVENESS_MAP.lookup cv.2 with
    | some m => es ++ [m]
    | none => es
  else es

/-- extract_ratings from the source: for every row and every cell, run the Likert
branch over all questions and the effectiveness branch. -/
def extract_ratings (responses : List Record) : Ratings × List ℤ :=
  responses.foldl (fun acc resp =>
    resp.foldl (fun acc2 cv => (likertStep acc2.1 cv, effStep acc2.2 cv)) acc)
    (fun _ => [], [])

/-- Declarative contribution of one cell to the score list of one label, written
from the claimed characterization: the mapped integer is emitted exactly when the
column contains the question's bound text, does not contain the free-text sibling
marker, and the value is a key of the Likert mapping. -/
def likertContrib (label : String) (cv : String × String) : List ℤ :=
  QUESTION_LABELS.filterMap (fun ql =>
    if ql.2 = label ∧ ql.1.toList <:+: cv.1.toList ∧ ¬("_Comments".toList <:+: cv.1.toList)
    then LIKERT_MAP.lookup cv.2 else none)

/-- Declarative per-label score list over all rows and cells, in traversal order. -/
def ratingsSpec (responses : List Record) (label : String) : List ℤ :=
  responses.flatMap (fun resp => resp.flatMap (likertContrib label))

/-- Declarative contribution of one cell to the effectiveness score list. -/
def effContrib (cv : String × String) : List ℤ :=
  if ("overall effectiveness".toList <:+: lowerChars cv.1) ∧
     ¬("_Comments".toList <:+: cv.1.toList)
  then (EFFECTIVENESS_MAP.lookup cv.2).toList else []

/-- Declarative effectiveness score list over all rows and cells. -/
def effSpec (responses : List Record) : List ℤ :=
  responses.flatMap (fun resp => resp.flatMap effContrib)

/-- Condition of the beneficial branch of extract_comments, translated from the
source: the raw (untrimmed) value is tested for emptiness and for the sentinel. -/
def benefitCond (cv : String × String) : Bool :=
  substrB "most beneficial".toList (lowerChars cv.1) && !(cv.2 == "") && !(cv.2 == "D/A")

/-- Condition of the improvement branch (the elif) of extract_comments. -/
def improveCond (cv : String × String) : Bool :=
  substrB "more effective".toList (lowerChars cv.1) && !(cv.2 == "") && !(cv.2 == "D/A")

/-- extract_comments from the source: an if/elif over every cell of every row,
appending the stripped value. -/
def extract_comments (responses : List Record) : List String × List String :=
  responses.foldl (fun acc resp =>
    resp.foldl (fun acc2 cv =>
      if benefitCond cv then (acc2.1 ++ [strip cv.2], acc2.2)
      else if improveCond cv then (acc2.1, acc2.2 ++ [strip cv.2])
      else acc2) acc) ([], [])

/-- The beneficial-comment sequence as the code actually computes it, declaratively:
collected exactly when the column contains the marker and the raw value is
non-empty and not the sentinel; the collected value is the trimmed one. -/
def beneficialSpec (responses : List Record) : List String :=
  responses.flatMap (fun resp => resp.filterMap (fun cv =>
    if benefitCond cv then some (strip cv.2) else none))

/-- The improvement-comment sequence as the code actually computes it: as above for
the other marker, except that a cell already satisfying the beneficial condition is
consumed by the first branch of the if/elif and never reaches this one. -/
def improvementSpec (responses : List Record) : List String :=
  responses.flatMap (fun resp => resp.filterMap (fun cv =>
    if ¬(benefitCond cv = true) ∧ improveCond cv = true then some (strip cv.2) else none))

/-- The beneficial-comment rule exactly as claim C2 words it: the conditions are on
the trimmed value (trimmed value non-empty and not equal to the sentinel). -/
def beneficialClaim (responses : List Record) : List String :=
  responses.flatMap (fun resp => resp.filterMap (fun cv =>
    if ("most beneficial".toList <:+: lowerChars cv.1) ∧ strip cv.2 ≠ "" ∧ strip cv.2 ≠ "D/A"
    then some (strip cv.2) else none))

/-- The positive-keyword vocabulary of filter_good_feedback, in source order. -/
def positive_keywords : List String :=
  ["great", "excellent", "helpful", "enjoyed", "liked", "appreciated",
   "well", "organized", "clear", "kind", "willing", "best", "really",
   "engaging", "informative", "thorough", "fair", "supportive"]

/-- Number of vocabulary keywords occurring in the lowercased comment; each keyword
is tested once and contributes at most 1. -/
def positiveCount (comment : String) : ℕ :=
  positive_keywords.countP (fun kw => substrB kw.toList (lowerChars comment))

/-- filter_good_feedback from the source; the source's default for min_length is 50. -/
def filter_good_feedback (comments : List String) (min_length : ℕ) : List String :=
  comments.filter (fun comment =>
    decide (min_length ≤ comment.length) && decide (2 ≤ positiveCount comment))

/-- Arithmetic mean over exact rationals (statistics.mean computes exactly). -/
def meanQ (xs : List ℚ) : ℚ := xs.sum / xs.length

/-- Unbiased sample variance (n-1 denominator): the square of statistics.stdev. -/
def sampleVar (xs : List ℚ) : ℚ :=
  (xs.map (fun x => (x - meanQ xs) ^ 2)).sum / ((xs.length : ℚ) - 1)

/-- Sample standard deviation, modelling statistics.stdev. -/
noncomputable def stdevR (xs : List ℚ) : ℝ := Real.sqrt ((sampleVar xs : ℚ) : ℝ)

/-- calculate_stats from the source: the (None, None) sentinel on the empty list,
standard deviation 0.0 when there is a single element. -/
noncomputable def calculate_stats (values : List ℚ) : Option ℝ × Option ℝ :=
  if values = [] then (none, none)
  else (some ((meanQ values : ℚ) : ℝ), some (if 1 < values.length then stdevR values else 0))

/-- One input file: its identifier (name) and its parsed rows. -/
structure EvalFile where
  name : String
  responses : List Record

/-- Comparison used by sorted(eval_files): lexicographic order on identifiers. -/
def fileLe (a b : EvalFile) : Bool := decide (a.name ≤ b.name)

/-- Files in processing order: sorted by identifier (stable). -/
def sortFiles (files : List EvalFile) : List EvalFile := files.mergeSort fileLe

/-- The running accumulators of main. -/
structure AggState where
  all_ratings : Ratings
  all_effectiveness : List ℤ
  all_beneficial : List String
  all_improvement : List String

/-- The empty accumulators main starts from. -/
def initAgg : AggState := ⟨fun _ => [], [], [], []⟩

/-- The per-course loop over QUESTION_LABELS in main: all_ratings[label] is
extended only when the file's list for that label is non-empty. -/
def extendRatings (allr : Ratings) (ratings : Ratings) : Ratings :=
  questionLabelNames.foldl (fun acc label =>
    if ratings label ≠ [] then
      (fun l => if l = label then acc l ++ ratings label else acc l)
    else acc) allr

/-- Folding one file into the accumulators, as the body of main's file loop does:
effectiveness is extended under a non-emptiness guard, ratings label by label
under a non-emptiness guard, comments unconditionally. -/
def processFile (st : AggState) (f : EvalFile) : AggState :=
  { all_ratings := extendRatings st.all_ratings (extract_ratings f.responses).1
    all_effectiveness :=
      if (extract_ratings f.responses).2 ≠ [] then
        st.all_effectiveness ++ (extract_ratings f.responses).2
      else st.all_effectiveness
    all_beneficial := st.all_beneficial ++ (extract_comments f.responses).1
    all_improvement := st.all_improvement ++ (extract_comments f.responses).2 }

/-- main's aggregation: fold the files, in sorted order, into the accumulators. -/
def aggregate (files : List EvalFile) : AggState :=
  (sortFiles files).foldl processFile initAgg

/-- The respondent count of a file: n_responses = len(responses). -/
def n_responses (responses : List Record) : ℕ := responses.length

/-- One entry of sorted_ratings: (mean, spread, label, sample count).  The source
stores the standard deviation in the second position; here the sample variance is
stored instead, so that the development stays executable.  The standard deviation
is the square root of the variance, and the square root is a strictly monotone
injection on the nonnegative reals, so comparing two entries by variance and
comparing them by standard deviation give the identical order; the ranking
theorems below state the tie-breaking in terms of Real.sqrt of this component. -/
abbrev RankedStat := ℚ × ℚ × String × ℕ

/-- Descending tuple comparison: rsGe a b holds when tuple a is lexicographically
greater than or equal to tuple b, mirroring Python tuple comparison under
sort(reverse=True). -/
def rsGe (a b : RankedStat) : Bool :=
  decide (b.1 < a.1) ||
    (decide (b.1 = a.1) &&
      (decide (b.2.1 < a.2.1) ||
        (decide (b.2.1 = a.2.1) &&
          (decide (b.2.2.1 < a.2.2.1) ||
            (decide (b.2.2.1 = a.2.2.1) && decide (b.2.2.2 ≤ a.2.2.2))))))

/-- The list of aggregate ranked tuples before sorting: one entry per label of
QUESTION_LABELS, in declaration order, restricted to labels whose aggregate list
is non-empty; the scores are cast to rationals for the statistics. -/
def rankedList (allr : Ratings) : List RankedStat :=
  questionLabelNames.foldl (fun acc label =>
    if allr label ≠ [] then
      acc ++ [(meanQ ((allr label).map (fun v => (v : ℚ))),
               sampleVar ((allr label).map (fun v => (v : ℚ))),
               label, (allr label).length)]
    else acc) []

/-- sorted_ratings of main: the ranked tuples sorted descending (stable). -/
def sorted_ratings (allr : Ratings) : List RankedStat :=
  (rankedList allr).mergeSort rsGe

/-- Whitespace class of the pattern (the regex \s). -/
def isSpaceP (c : Char) : Bool := c.isWhitespace

/-- Digit class of the pattern (the regex \d). -/
def isDigitP (c : Char) : Bool := c.isDigit

/-- Maximal munch of a non-empty run of characters satisfying p: the behaviour of
a greedy one-or-more class repetition whose continuation cannot start with a
character of the same class. -/
def munch1 (p : Char → Bool) (s : List Char) : Option (List Char × List Char) :=
  if s.takeWhile p = [] then none else some (s.takeWhile p, s.dropWhile p)

/-- Matching the tail (CMSI\s+\d+)\s+(\d+) of the pattern at the start of s,
returning the two captured groups. -/
def matchTail (s : List Char) : Option (String × String) :=
  if "CMSI".toList.isPrefixOf s then
    match munch1 isSpaceP (s.drop 4) with
    | none => none
    | some (w2, s2) =>
      match munch1 isDigitP s2 with
      | none => none
      | some (d1, s3) =>
        match munch1 isSpaceP s3 with
        | none => none
        | some (_, s4) =>
          match munch1 isDigitP s4 with
          | none => none
          | some (d2, _) => some (⟨"CMSI".toList ++ w2 ++ d1⟩, ⟨d2⟩)
  else none

/-- The lazy dot-star followed by the tail: try the tail at the current position,
else skip one character, which the dot cannot do across a newline. -/
def searchTail : List Char → Option (String × String)
  | [] =>
    match matchTail [] with
    | some g => some g
    | none => none
  | c :: rest =>
    match matchTail (c :: rest) with
    | some g => some g
    | none => if c = '\n' then none else searchTail rest

/-- The alternation (Spring|Fall|Summer) at the start of s; the three words are
pairwise distinguishable within their first two characters, so trying them in
order is exactly the regex alternation. -/
def matchSemAt (s : List Char) : Option (String × List Char) :=
  if "Spring".toList.isPrefixOf s then some ("Spring", s.drop 6)
  else if "Fall".toList.isPrefixOf s then some ("Fall", s.drop 4)
  else if "Summer".toList.isPrefixOf s then some ("Summer", s.drop 6)
  else none

/-- Matching the whole pattern anchored at the start of s, returning the groups
(semester, year, course, section). -/
def matchAt (s : List Char) : Option (String × String × String × String) :=
  match matchSemAt s with
  | none => none
  | some (sem, s1) =>
    match munch1 isSpaceP s1 with
    | none => none
    | some (_, s2) =>
      if (s2.take 4).length = 4 ∧ (s2.take 4).all isDigitP then
        match searchTail (s2.drop 4) with
        | none => none
        | some (course, sect) => some (sem, ⟨s2.take 4⟩, course, sect)
      else none

/-- re.search for the pattern: try every start position from the left. -/
def reSearch : List Char → Option (String × String × String × String)
  | [] =>
    match matchAt [] with
    | some g => some g
    | none => none
  | c :: rest =>
    match matchAt (c :: rest) with
    | some g => some g
    | none => reSearch rest

/-- parse_course_info from the source.  The source applies
.replace(" ", " ") to the course group; both arguments are a plain ASCII
space in the source bytes, so it is the identity and is omitted here. -/
def parse_course_info (filename : String) : String × String × String :=
  match reSearch filename.toList with
  | some (sem, year, course, sect) => (sem ++ " " ++ year, course, sect)
  | none => ("Unknown", "Unknown", "00")

/-- The semester alternation, declaratively. -/
def semWord (sem : List Char) : Prop :=
  sem = "Spring".toList ∨ sem = "Fall".toList ∨ sem = "Summer".toList

/-- Declarative decomposition of a string that the tail of the pattern matches at
its start, with the two groups it captures. -/
def tailDecomp (t : List Char) (course sect : List Char) : Prop :=
  ∃ w2 d1 w3 d2 rest, t = "CMSI".toList ++ w2 ++ d1 ++ w3 ++ d2 ++ rest ∧
    w2 ≠ [] ∧ w2.all isSpaceP ∧ d1 ≠ [] ∧ d1.all isDigitP ∧
    w3 ≠ [] ∧ w3.all isSpaceP ∧ d2 ≠ [] ∧ d2.all isDigitP ∧
    course = "CMSI".toList ++ w2 ++ d1 ∧ sect = d2

/-- The string contains the pattern, declaratively: some split of it carries a
semester word, whitespace, four digits, a newline-free gap, and the tail. -/
def containsPattern (s : List Char) : Prop :=
  ∃ pre sem w1 y mid t, s = pre ++ sem ++ w1 ++ y ++ mid ++ t ∧
    semWord sem ∧ w1 ≠ [] ∧ w1.all isSpaceP ∧ y.length = 4 ∧ y.all isDigitP ∧
    mid.all (fun c => c ≠ '\n') ∧ ∃ course sect, tailDecomp t course sect

/-- Concrete ratings table used to witness the ranking theorem: six labels with
non-empty singleton lists, hence six pairwise distinct means. -/
def allr6 : Ratings := fun l =>
  if l = "Outcomes Stated" then [5]
  else if l = "Outcomes Addressed" then [4]
  else if l = "Interactions" then [3]
  else if l = "Accessible" then [2]
  else if l = "Feedback" then [1]
  else if l = "Challenged" then [0]
  else []

/-- Concrete record list used to witness the range theorem: one respondent with
one Likert answer and one effectiveness answer. -/
def respW : List Record :=
  [[("Learning outcomes for the course were clearly stated", "Agree"),
    ("Overall effectiveness of the instructor", "Good")]]

/-- Bridge between the Boolean substring test and the substring relation. -/
theorem substrB_eq {needle hay : List Char} : substrB needle hay = true ↔ needle <:+: hay := by
  simp [substrB]

/-- On a duplicate-free list, a predicate count of at least two is the same as the
existence of two distinct elements satisfying the predicate. -/
theorem two_le_countP_iff {α : Type} (p : α → Bool) (l : List α) (hn : l.Nodup) :
    2 ≤ l.countP p ↔ ∃ a ∈ l, ∃ b ∈ l, a ≠ b ∧ p a = true ∧ p b = true := by
  rw [List.countP_eq_length_filter]
  constructor
  · intro h
    match hf : l.filter p with
    | [] => rw [hf] at h; simp at h
    | [x] => rw [hf] at h; simp at h
    | a :: b :: t =>
      have ha : a ∈ l.filter p := by rw [hf]; exact List.mem_cons_self ..
      have hb : b ∈ l.filter p := by rw [hf]; simp
      have hnodup : (l.filter p).Nodup := hn.filter p
      have hab : a ≠ b := by
        rw [hf] at hnodup
        rcases List.nodup_cons.mp hnodup with ⟨hna, _⟩
        intro e
        exact hna (e ▸ List.mem_cons_self ..)
      rcases List.mem_filter.mp ha with ⟨ha1, ha2⟩
      rcases List.mem_filter.mp hb with ⟨hb1, hb2⟩
      exact ⟨a, ha1, b, hb1, hab, ha2, hb2⟩
  · rintro ⟨a, ha, b, hb, hab, hpa, hpb⟩
    have ha' : a ∈ l.filter p := List.mem_filter.mpr ⟨ha, hpa⟩
    have hb' : b ∈ l.filter p := List.mem_filter.mpr ⟨hb, hpb⟩
    match hf : l.filter p with
    | [] => rw [hf] at ha'; simp at ha'
    | [x] =>
      rw [hf] at ha' hb'
      simp at ha' hb'
      exact absurd (ha'.trans hb'.symm) hab
    | x :: y :: t => simp only [List.length_cons]; omega

/-- Claim C1: filter_good_feedback retains a comment iff its character length is at
least the threshold and at least two distinct keywords of the vocabulary occur as
case-insensitive substrings of it; retained comments keep the input order (the
output is a sublist of the input), and a comment of exactly 49 characters is
always excluded at the source's default threshold 50. -/
theorem filter_good_feedback_correct (comments : List String) (ml : ℕ) :
    (∀ c, c ∈ filter_good_feedback comments ml ↔
        c ∈ comments ∧ ml ≤ c.length ∧
          ∃ k1 ∈ positive_keywords, ∃ k2 ∈ positive_keywords,
            k1 ≠ k2 ∧ k1.toList <:+: lowerChars c ∧ k2.toList <:+: lowerChars c)
    ∧ (filter_good_feedback comments ml).Sublist comments
    ∧ (∀ c, c.length = 49 → c ∉ filter_good_feedback comments 50) := by
  have hkey : ∀ c : String, 2 ≤ positiveCount c ↔
      ∃ k1 ∈ positive_keywords, ∃ k2 ∈ positive_keywords,
        k1 ≠ k2 ∧ k1.toList <:+: lowerChars c ∧ k2.toList <:+: lowerChars c := by
    intro c
    rw [positiveCount, two_le_countP_iff _ _ (by decide)]
    constructor
    · rintro ⟨a, ha, b, hb, hab, hpa, hpb⟩
      exact ⟨a, ha, b, hb, hab, substrB_eq.mp hpa, substrB_eq.mp hpb⟩
    · rintro ⟨a, ha, b, hb, hab, hpa, hpb⟩
      exact ⟨a, ha, b, hb, hab, substrB_eq.mpr hpa, substrB_eq.mpr hpb⟩
  refine ⟨?_, List.filter_sublist _, ?_⟩
  · intro c
    rw [filter_good_feedback, List.mem_filter]
    simp only [Bool.and_eq_true, decide_eq_true_eq]
    rw [hkey c]
  · intro c hc hmem
    rw [filter_good_feedback, List.mem_filter] at hmem
    simp only [Bool.and_eq_true, decide_eq_true_eq] at hmem
    omega

/-- Witness for the hypothesis-bearing part of the filter theorem, at a concrete
49-character comment. -/
theorem filter_good_feedback_correct_witness :
    (⟨List.replicate 49 'a'⟩ : String).length = 49 ∧
      (⟨List.replicate 49 'a'⟩ : String) ∉
        filter_good_feedback [⟨List.replicate 49 'a'⟩] 50 :=
  ⟨by decide, (filter_good_feedback_correct [⟨List.replicate 49 'a'⟩] 50).2.2 _ (by decide)⟩

/-- Casting a rational list sum to the reals is the sum of the cast list. -/
theorem ratCast_list_sum (xs : List ℚ) :
    ((xs.sum : ℚ) : ℝ) = (xs.map (fun x : ℚ => (x : ℝ))).sum := by
  induction xs with
  | nil => simp
  | cons a t ih => simp [ih]

/-- The sample variance is nonnegative. -/
theorem sampleVar_nonneg (xs : List ℚ) : 0 ≤ sampleVar xs := by
  rcases xs with _ | ⟨a, t⟩
  · simp [sampleVar, meanQ]
  · apply div_nonneg
    · apply List.sum_nonneg
      intro x hx
      rcases List.mem_map.mp hx with ⟨y, _, rfl⟩
      exact sq_nonneg _
    · have h1 : (1 : ℚ) ≤ ((a :: t).length : ℚ) := by
        exact_mod_cast Nat.succ_le_succ (Nat.zero_le _)
      linarith

/-- The cast of the sample variance is the textbook n-1 variance over the reals. -/
theorem sampleVar_cast (xs : List ℚ) :
    ((sampleVar xs : ℚ) : ℝ) =
      ((xs.map (fun x : ℚ =>
          ((x : ℝ) - (xs.map (fun y : ℚ => (y : ℝ))).sum / xs.length) ^ 2)).sum)
        / ((xs.length : ℝ) - 1) := by
  rw [sampleVar, Rat.cast_div, ratCast_list_sum, List.map_map]
  have hfun : ((fun x : ℚ => (x : ℝ)) ∘ fun x : ℚ => (x - meanQ xs) ^ 2)
      = fun x : ℚ => ((x : ℝ) - (xs.map (fun y : ℚ => (y : ℝ))).sum / xs.length) ^ 2 := by
    funext x
    simp only [Function.comp]
    rw [meanQ]
    push_cast [ratCast_list_sum]
    ring
  rw [hfun]
  push_cast
  ring

/-- Claim C4: calculate_stats returns the (none, none) sentinel on the empty list,
standard deviation exactly 0 on singletons, and for length at least two the exact
mean together with the unbiased (n-1 denominator) sample standard deviation — the
nonnegative real whose square is the n-1 sample variance; on a constant list the
mean is the constant and the standard deviation is 0. -/
theorem calculate_stats_spec :
    calculate_stats [] = (none, none)
    ∧ (∀ x : ℚ, calculate_stats [x] = (some (x : ℝ), some 0))
    ∧ (∀ xs : List ℚ, 2 ≤ xs.length →
        calculate_stats xs = (some ((meanQ xs : ℚ) : ℝ), some (stdevR xs))
        ∧ 0 ≤ stdevR xs
        ∧ (stdevR xs) ^ 2 =
            ((xs.map (fun x : ℚ =>
                ((x : ℝ) - (xs.map (fun y : ℚ => (y : ℝ))).sum / xs.length) ^ 2)).sum)
              / ((xs.length : ℝ) - 1))
    ∧ (∀ (n : ℕ) (k : ℚ), 1 ≤ n →
        calculate_stats (List.replicate n k) = (some (k : ℝ), some 0)) := by
  refine ⟨by simp [calculate_stats], ?_, ?_, ?_⟩
  · intro x
    simp [calculate_stats, meanQ]
  · intro xs h2
    have hne : xs ≠ [] := by intro e; rw [e] at h2; simp at h2
    have h1 : 1 < xs.length := by omega
    refine ⟨by simp [calculate_stats, hne, h1], Real.sqrt_nonneg _, ?_⟩
    rw [stdevR, Real.sq_sqrt (by exact_mod_cast sampleVar_nonneg xs)]
    exact sampleVar_cast xs
  · intro n k h
    have hne : List.replicate n k ≠ [] := by
      simp [List.replicate_eq_nil_iff]
      omega
    have hm : meanQ (List.replicate n k) = k := by
      have hn0 : (n : ℚ) ≠ 0 := Nat.cast_ne_zero.mpr (by omega)
      rw [meanQ, List.sum_replicate, List.length_replicate, nsmul_eq_mul,
        mul_div_cancel_left₀ _ hn0]
    have hv : sampleVar (List.replicate n k) = 0 := by
      rw [sampleVar, hm]
      simp
    rcases Nat.lt_or_ge 1 (List.replicate n k).length with h1 | h1
    · simp [calculate_stats, hne, h1, hm, stdevR, hv]
    · have hlen : (List.replicate n k).length = 1 := by
        rw [List.length_replicate] at h1 ⊢
        omega
      simp [calculate_stats, hne, hm, hlen]

/-- Witness for the hypothesis-bearing parts of the calculate_stats theorem, at the
concrete lists [1, 3] and the constant pair replicate 2 5. -/
theorem calculate_stats_spec_witness :
    (calculate_stats [1, 3] = (some ((meanQ [1, 3] : ℚ) : ℝ), some (stdevR [1, 3]))
      ∧ 0 ≤ stdevR [1, 3]
      ∧ (stdevR [1, 3]) ^ 2 =
          ((([1, 3] : List ℚ).map (fun x : ℚ =>
              ((x : ℝ) - (([1, 3] : List ℚ).map (fun y : ℚ => (y : ℝ))).sum /
                ([1, 3] : List ℚ).length) ^ 2)).sum)
            / ((([1, 3] : List ℚ).length : ℝ) - 1))
    ∧ calculate_stats (List.replicate 2 (5 : ℚ)) = (some ((5 : ℚ) : ℝ), some 0) :=
  ⟨calculate_stats_spec.2.2.1 [1, 3] (by decide),
   calculate_stats_spec.2.2.2 2 5 (by decide)⟩

/-- Claim C9: the statistics are order-invariant — permuting the input list leaves
the (mean, standard deviation) result of calculate_stats unchanged. -/
theorem calculate_stats_perm_invariant :
    ∀ xs ys : List ℚ, xs.Perm ys → calculate_stats xs = calculate_stats ys := by
  intro xs ys h
  have hlen := h.length_eq
  have hsum := h.sum_eq
  have hmean : meanQ xs = meanQ ys := by rw [meanQ, meanQ, hsum, hlen]
  have hvar : sampleVar xs = sampleVar ys := by
    rw [sampleVar, sampleVar, hlen, hmean, (h.map (fun x => (x - meanQ ys) ^ 2)).sum_eq]
  rcases eq_or_ne xs [] with rfl | hne
  · rw [List.Perm.eq_nil h.symm]
  · have hne2 : ys ≠ [] := by
      intro e
      rw [e] at h
      exact hne h.eq_nil
    simp [calculate_stats, hne, hne2, hmean, hlen, stdevR, hvar]

/-- Witness for the permutation-invariance theorem at a concrete transposition. -/
theorem calculate_stats_perm_invariant_witness :
    calculate_stats [1, 2] = calculate_stats [2, 1] :=
  calculate_stats_perm_invariant [1, 2] [2, 1] (List.Perm.swap 2 1 [])

/-- The fold over a question list changes one label's list by exactly the
declarative contributions of that cell. -/
theorem likertFold_apply (qs : List (String × String)) (r : Ratings)
    (cv : String × String) (label : String) :
    likertFold qs r cv label
      = r label ++ qs.filterMap (fun ql =>
          if ql.2 = label ∧ ql.1.toList <:+: cv.1.toList ∧
              ¬("_Comments".toList <:+: cv.1.toList)
          then LIKERT_MAP.lookup cv.2 else none) := by
  induction qs generalizing r with
  | nil => simp [likertFold]
  | cons q qs ih =>
    have hstep : likertFold (q :: qs) r cv = likertFold qs
        (if substrB q.1.toList cv.1.toList && !substrB "_Comments".toList cv.1.toList then
          match LIKERT_MAP.lookup cv.2 with
          | some m => ratingsAppend r q.2 m
          | none => r
        else r) cv := by
      rw [likertFold, List.foldl_cons]
      rfl
    rw [hstep, List.filterMap_cons]
    by_cases hc : (substrB q.1.toList cv.1.toList &&
        !substrB "_Comments".toList cv.1.toList) = true
    · have hc2 := hc
      rw [Bool.and_eq_true] at hc2
      obtain ⟨h1, h2⟩ := hc2
      have hin : q.1.toList <:+: cv.1.toList := substrB_eq.mp h1
      have hnc : ¬("_Comments".toList <:+: cv.1.toList) := by
        intro hco
        rw [Bool.not_eq_true', ← Bool.not_eq_true] at h2
        exact h2 (substrB_eq.mpr hco)
      rw [if_pos hc]
      rcases hl : LIKERT_MAP.lookup cv.2 with _ | m
      · rw [ih, hl]
        simp
      · rw [ih, hl]
        by_cases hq : q.2 = label
        · rw [if_pos ⟨hq, hin, hnc⟩]
          have happ : ratingsAppend r q.2 m label = r label ++ [m] := by
            rw [ratingsAppend, if_pos hq.symm]
          simp [happ]
        · rw [if_neg (by rintro ⟨e, -, -⟩; exact hq e)]
          have happ : ratingsAppend r q.2 m label = r label := by
            rw [ratingsAppend, if_neg (fun e => hq e.symm)]
          simp [happ]
    · rw [if_neg hc, ih]
      have hcond : ¬(q.2 = label ∧ q.1.toList <:+: cv.1.toList ∧
          ¬("_Comments".toList <:+: cv.1.toList)) := by
        rintro ⟨-, h1, h2⟩
        apply hc
        rw [Bool.and_eq_true]
        refine ⟨substrB_eq.mpr h1, ?_⟩
        rw [Bool.not_eq_true', ← Bool.not_eq_true]
        intro hsb
        exact h2 (substrB_eq.mp hsb)
      rw [if_neg hcond]

/-- One-cell version of the Likert characterization. -/
theorem likertStep_apply (r : Ratings) (cv : String × String) (label : String) :
    likertStep r cv label = r label ++ likertContrib label cv := by
  rw [likertStep, likertFold_apply]
  rfl

/-- One-cell version of the effectiveness characterization. -/
theorem effStep_apply (es : List ℤ) (cv : String × String) :
    effStep es cv = es ++ effContrib cv := by
  rw [effStep, effContrib]
  by_cases hc : (substrB "overall effectiveness".toList (lowerChars cv.1) &&
      !substrB "_Comments".toList cv.1.toList) = true
  · have hc2 := hc
    rw [Bool.and_eq_true] at hc2
    obtain ⟨h1, h2⟩ := hc2
    have hin : "overall effectiveness".toList <:+: lowerChars cv.1 := substrB_eq.mp h1
    have hnc : ¬("_Comments".toList <:+: cv.1.toList) := by
      intro hco
      rw [Bool.not_eq_true', ← Bool.not_eq_true] at h2
      exact h2 (substrB_eq.mpr hco)
    rw [if_pos hc, if_pos ⟨hin, hnc⟩]
    rcases hl : EFFECTIVENESS_MAP.lookup cv.2 with _ | m <;> simp [hl]
  · have hcond : ¬(("overall effectiveness".toList <:+: lowerChars cv.1) ∧
        ¬("_Comments".toList <:+: cv.1.toList)) := by
      rintro ⟨h1, h2⟩
      apply hc
      rw [Bool.and_eq_true]
      refine ⟨substrB_eq.mpr h1, ?_⟩
      rw [Bool.not_eq_true', ← Bool.not_eq_true]
      intro hsb
      exact h2 (substrB_eq.mp hsb)
    rw [if_neg hc, if_neg hcond]
    simp

/-- Folding one row's cells extends the accumulators by exactly the declarative
contributions of that row, in cell order. -/
theorem cellsFold_apply (resp : Record) (acc : Ratings × List ℤ) :
    (∀ label, (resp.foldl (fun a2 cv => (likertStep a2.1 cv, effStep a2.2 cv)) acc).1 label
        = acc.1 label ++ resp.flatMap (likertContrib label))
    ∧ (resp.foldl (fun a2 cv => (likertStep a2.1 cv, effStep a2.2 cv)) acc).2
        = acc.2 ++ resp.flatMap effContrib := by
  induction resp generalizing acc with
  | nil => simp
  | cons cv resp ih =>
    rw [List.foldl_cons]
    constructor
    · intro label
      rw [(ih _).1 label, List.flatMap_cons]
      show likertStep acc.1 cv label ++ _ = _
      rw [likertStep_apply, List.append_assoc]
    · rw [(ih _).2, List.flatMap_cons]
      show effStep acc.2 cv ++ _ = _
      rw [effStep_apply, List.append_assoc]

/-- Folding the rows extends the accumulators by exactly the declarative score
lists, in row order. -/
theorem responsesFold_apply (rs : List Record) (acc : Ratings × List ℤ) :
    (∀ label, (rs.foldl (fun a resp =>
          resp.foldl (fun a2 cv => (likertStep a2.1 cv, effStep a2.2 cv)) a) acc).1 label
        = acc.1 label ++ ratingsSpec rs label)
    ∧ (rs.foldl (fun a resp =>
          resp.foldl (fun a2 cv => (likertStep a2.1 cv, effStep a2.2 cv)) a) acc).2
        = acc.2 ++ effSpec rs := by
  induction rs generalizing acc with
  | nil => simp [ratingsSpec, effSpec]
  | cons resp rs ih =>
    rw [List.foldl_cons]
    constructor
    · intro label
      rw [(ih _).1 label, (cellsFold_apply resp acc).1 label]
      simp [ratingsSpec, List.append_assoc]
    · rw [(ih _).2, (cellsFold_apply resp acc).2]
      simp [effSpec, List.append_assoc]

/-- Claim C3: extract_ratings appends a mapped value to a label's series exactly
under the claimed conditions, in traversal order — the computed series coincide
with the declarative filter-map characterizations. -/
theorem extract_ratings_characterization (responses : List Record) :
    (∀ label, (extract_ratings responses).1 label = ratingsSpec responses label)
    ∧ (extract_ratings responses).2 = effSpec responses := by
  constructor
  · intro label
    rw [extract_ratings, (responsesFold_apply responses _).1 label]
    simp
  · rw [extract_ratings, (responsesFold_apply responses _).2]
    simp

/-- Folding one row's cells through the comment if/elif extends both comment lists
by exactly the declarative contributions, in cell order. -/
theorem commentCellsFold_apply (resp : Record) (acc : List String × List String) :
    resp.foldl (fun a2 cv =>
        if benefitCond cv then (a2.1 ++ [strip cv.2], a2.2)
        else if improveCond cv then (a2.1, a2.2 ++ [strip cv.2])
        else a2) acc
      = (acc.1 ++ resp.filterMap (fun cv =>
            if benefitCond cv then some (strip cv.2) else none),
         acc.2 ++ resp.filterMap (fun cv =>
            if ¬(benefitCond cv = true) ∧ improveCond cv = true
            then some (strip cv.2) else none)) := by
  induction resp generalizing acc with
  | nil => simp
  | cons cv resp ih =>
    rw [List.foldl_cons, ih, List.filterMap_cons, List.filterMap_cons]
    by_cases hb : benefitCond cv = true
    · simp [hb]
    · by_cases hi : improveCond cv = true
      · simp [hb, hi]
      · simp [hb, hi]

/-- Counterexample to claim C2 as stated: on a column containing the marker with a
whitespace-only value, the code appends the stripped value (the empty string), while
the claim's trimmed-value conditions would collect nothing. -/
theorem extract_comments_claim_counterexample :
    (extract_comments [[("most beneficial", " ")]]).1 = [""]
    ∧ beneficialClaim [[("most beneficial", " ")]] = [] := ⟨rfl, rfl⟩

/-- Claim C2 amended: extract_comments collects a trimmed value into the benefit
sequence exactly when the column contains "most beneficial" case-insensitively and
the raw untrimmed value is non-empty and not the literal sentinel "D/A"; it
collects into the improvement sequence exactly when the column contains
"more effective", the raw value passes the same raw tests, and the cell does not
already satisfy the benefit condition (the source's elif). -/
theorem extract_comments_characterization (responses : List Record) :
    extract_comments responses = (beneficialSpec responses, improvementSpec responses) := by
  rw [extract_comments]
  have main : ∀ (rs : List Record) (acc : List String × List String),
      rs.foldl (fun a resp =>
          resp.foldl (fun a2 cv =>
            if benefitCond cv then (a2.1 ++ [strip cv.2], a2.2)
            else if improveCond cv then (a2.1, a2.2 ++ [strip cv.2])
            else a2) a) acc
        = (acc.1 ++ beneficialSpec rs, acc.2 ++ improvementSpec rs) := by
    intro rs
    induction rs with
    | nil => simp [beneficialSpec, improvementSpec]
    | cons resp rs ih =>
      intro acc
      rw [List.foldl_cons, commentCellsFold_apply, ih]
      simp [beneficialSpec, improvementSpec, List.append_assoc]
  rw [main]
  simp

/-- A lookup result is the value of some pair of the table. -/
theorem lookup_mem_pair (m : List (String × ℤ)) (k : String) (v : ℤ)
    (h : m.lookup k = some v) : ∃ p ∈ m, p.2 = v := by
  induction m with
  | nil => simp [List.lookup] at h
  | cons p m ih =>
    rw [List.lookup] at h
    by_cases hk : (k == p.1) = true
    · rw [hk] at h
      simp only [Option.some.injEq] at h
      exact ⟨p, List.mem_cons_self .., h⟩
    · rw [Bool.not_eq_true] at hk
      rw [hk] at h
      rcases ih h with ⟨q, hq, hv⟩
      exact ⟨q, List.mem_cons_of_mem _ hq, hv⟩

/-- Claim C7: every value of a question series is the image of a key of the Likert
mapping and every effectiveness value the image of a key of the effectiveness
mapping — so all values lie in [1, 5] and the two scales stay in their own
series — while any row, even one with no mappable answer, adds exactly one to the
respondent count. -/
theorem extract_ratings_range (responses : List Record) :
    (∀ label v, v ∈ (extract_ratings responses).1 label →
        (∃ p ∈ LIKERT_MAP, p.2 = v) ∧ 1 ≤ v ∧ v ≤ 5)
    ∧ (∀ v ∈ (extract_ratings responses).2,
        (∃ p ∈ EFFECTIVENESS_MAP, p.2 = v) ∧ 1 ≤ v ∧ v ≤ 5)
    ∧ (∀ r : Record, n_responses (responses ++ [r]) = n_responses responses + 1) := by
  refine ⟨?_, ?_, ?_⟩
  · intro label v hv
    rw [extract_ratings, (responsesFold_apply responses _).1 label] at hv
    simp only [List.nil_append] at hv
    simp only [ratingsSpec, List.mem_flatMap] at hv
    obtain ⟨resp, -, cv, -, hv3⟩ := hv
    simp only [likertContrib, List.mem_filterMap] at hv3
    obtain ⟨ql, -, hsome⟩ := hv3
    rw [ite_eq_iff] at hsome
    rcases hsome with ⟨-, hsome⟩ | ⟨-, hsome⟩
    · rcases lookup_mem_pair _ _ _ hsome with ⟨p, hp, hpv⟩
      refine ⟨⟨p, hp, hpv⟩, ?_⟩
      simp only [LIKERT_MAP, List.mem_cons, List.not_mem_nil, or_false] at hp
      rcases hp with rfl | rfl | rfl | rfl | rfl <;> simp at hpv <;> omega
    · exact absurd hsome (by simp)
  · intro v hv
    rw [extract_ratings, (responsesFold_apply responses _).2] at hv
    simp only [List.nil_append] at hv
    simp only [effSpec, List.mem_flatMap] at hv
    obtain ⟨resp, -, cv, -, hv3⟩ := hv
    rw [effContrib] at hv3
    by_cases hc : ("overall effectiveness".toList <:+: lowerChars cv.1) ∧
        ¬("_Comments".toList <:+: cv.1.toList)
    · rw [if_pos hc] at hv3
      have hsome : EFFECTIVENESS_MAP.lookup cv.2 = some v := by
        rcases hl : EFFECTIVENESS_MAP.lookup cv.2 with _ | m
        · rw [hl] at hv3
          simp at hv3
        · rw [hl] at hv3
          simp at hv3
          rw [hv3]
      rcases lookup_mem_pair _ _ _ hsome with ⟨p, hp, hpv⟩
      refine ⟨⟨p, hp, hpv⟩, ?_⟩
      simp only [EFFECTIVENESS_MAP, List.mem_cons, List.not_mem_nil, or_false] at hp
      rcases hp with rfl | rfl | rfl | rfl | rfl <;> simp at hpv <;> omega
    · rw [if_neg hc] at hv3
      simp at hv3
  · intro r
    simp [n_responses]

/-- Witness for the range theorem at a concrete respondent: one Likert answer, one
effectiveness answer, and an appended empty row that still counts. -/
theorem extract_ratings_range_witness :
    ((∃ p ∈ LIKERT_MAP, p.2 = (4 : ℤ)) ∧ (1 : ℤ) ≤ 4 ∧ (4 : ℤ) ≤ 5)
    ∧ ((∃ p ∈ EFFECTIVENESS_MAP, p.2 = (3 : ℤ)) ∧ (1 : ℤ) ≤ 3 ∧ (3 : ℤ) ≤ 5)
    ∧ n_responses (respW ++ [[]]) = n_responses respW + 1 :=
  ⟨(extract_ratings_range respW).1 "Outcomes Stated" 4 (by decide),
   (extract_ratings_range respW).2.1 3 (by decide),
   (extract_ratings_range respW).2.2 []⟩

/-- The label list carries no duplicates. -/
theorem questionLabelNames_nodup : questionLabelNames.Nodup := by decide

/-- The conditional label-by-label fold of main evaluates, at each label, to the
unconditional append (the skipped case appends the empty list). -/
theorem extendFold_apply (qs : List String) (hq : qs.Nodup) (a r : Ratings)
    (label : String) :
    (qs.foldl (fun acc l0 =>
        if r l0 ≠ [] then (fun l => if l = l0 then acc l ++ r l0 else acc l) else acc) a) label
      = if label ∈ qs then a label ++ r label else a label := by
  induction qs generalizing a with
  | nil => simp
  | cons q qs ih =>
    rw [List.foldl_cons]
    rcases List.nodup_cons.mp hq with ⟨hqn, hqs⟩
    by_cases hl : label = q
    · subst hl
      rw [ih hqs, if_neg hqn, if_pos (List.mem_cons_self ..)]
      by_cases hr : r label ≠ []
      · rw [if_pos hr, if_pos rfl]
      · rw [if_neg hr]
        rw [not_ne_iff] at hr
        rw [hr, List.append_nil]
    · rw [ih hqs]
      have hstep : ∀ b : Ratings,
          (if r q ≠ [] then (fun l => if l = q then b l ++ r q else b l) else b) label
            = b label := by
        intro b
        by_cases hr : r q ≠ []
        · rw [if_pos hr, if_neg hl]
        · rw [if_neg hr]
      by_cases hmem : label ∈ qs
      · rw [hstep, if_pos hmem, if_pos (List.mem_cons_of_mem _ hmem)]
      · have hnotc : label ∉ q :: qs := by
          intro hcc
          rcases List.mem_cons.mp hcc with e | e
          exacts [hl e, hmem e]
        rw [hstep, if_neg hmem, if_neg hnotc]

/-- A label outside the question list never receives a contribution. -/
theorem likertContrib_not_label (label : String) (cv : String × String)
    (h : label ∉ questionLabelNames) : likertContrib label cv = [] := by
  rw [likertContrib]
  refine List.filterMap_eq_nil_iff.mpr ?_
  intro ql hql
  rw [if_neg]
  rintro ⟨e, -, -⟩
  exact h (e ▸ List.mem_map_of_mem Prod.snd hql)

/-- A label outside the question list has an empty declarative series. -/
theorem ratingsSpec_not_label (responses : List Record) (label : String)
    (h : label ∉ questionLabelNames) : ratingsSpec responses label = [] := by
  rw [ratingsSpec]
  refine List.flatMap_eq_nil_iff.mpr ?_
  intro resp hresp
  refine List.flatMap_eq_nil_iff.mpr ?_
  intro cv hcv
  exact likertContrib_not_label label cv h

/-- A label outside the question list has an empty extracted series. -/
theorem extract_ratings_not_label (responses : List Record) (label : String)
    (h : label ∉ questionLabelNames) : (extract_ratings responses).1 label = [] := by
  rw [extract_ratings, (responsesFold_apply responses _).1 label]
  simp [ratingsSpec_not_label responses label h]

/-- Folding one file appends its series to each label's aggregate list. -/
theorem processFile_ratings (st : AggState) (f : EvalFile) (label : String) :
    (processFile st f).all_ratings label
      = st.all_ratings label ++ (extract_ratings f.responses).1 label := by
  show extendRatings st.all_ratings (extract_ratings f.responses).1 label = _
  rw [extendRatings, extendFold_apply _ questionLabelNames_nodup]
  by_cases h : label ∈ questionLabelNames
  · rw [if_pos h]
  · rw [if_neg h, extract_ratings_not_label _ _ h, List.append_nil]

/-- Folding the sorted files extends each accumulator by the concatenation of the
per-file pieces, in processing order. -/
theorem aggregateFold_apply (fs : List EvalFile) (st : AggState) :
    (∀ label, (fs.foldl processFile st).all_ratings label
        = st.all_ratings label ++ (fs.map (fun f => (extract_ratings f.responses).1 label)).flatten)
    ∧ (fs.foldl processFile st).all_effectiveness
        = st.all_effectiveness ++ (fs.map (fun f => (extract_ratings f.responses).2)).flatten
    ∧ (fs.foldl processFile st).all_beneficial
        = st.all_beneficial ++ (fs.map (fun f => (extract_comments f.responses).1)).flatten
    ∧ (fs.foldl processFile st).all_improvement
        = st.all_improvement ++ (fs.map (fun f => (extract_comments f.responses).2)).flatten := by
  induction fs generalizing st with
  | nil => simp
  | cons f fs ih =>
    rw [List.foldl_cons]
    refine ⟨?_, ?_, ?_, ?_⟩
    · intro label
      rw [(ih _).1 label, processFile_ratings, List.map_cons, List.flatten_cons,
        List.append_assoc]
    · rw [(ih _).2.1, List.map_cons, List.flatten_cons]
      show (if (extract_ratings f.responses).2 ≠ [] then
          st.all_effectiveness ++ (extract_ratings f.responses).2
        else st.all_effectiveness) ++ _ = _
      by_cases he : (extract_ratings f.responses).2 ≠ []
      · rw [if_pos he, List.append_assoc]
      · rw [if_neg he]
        rw [not_ne_iff] at he
        rw [he]
        simp
    · rw [(ih _).2.2.1, List.map_cons, List.flatten_cons]
      show (st.all_beneficial ++ (extract_comments f.responses).1) ++ _ = _
      rw [List.append_assoc]
    · rw [(ih _).2.2.2, List.map_cons, List.flatten_cons]
      show (st.all_improvement ++ (extract_comments f.responses).2) ++ _ = _
      rw [List.append_assoc]

/-- Claim C6: aggregation is concatenation in sorted file order — every aggregate
sequence equals the concatenation of the per-file sequences over the sorted file
list, so its length is the sum of the per-file lengths. -/
theorem aggregate_concat (files : List EvalFile) :
    (∀ label,
        (aggregate files).all_ratings label
          = ((sortFiles files).map (fun f => (extract_ratings f.responses).1 label)).flatten
        ∧ ((aggregate files).all_ratings label).length
          = ((sortFiles files).map (fun f => ((extract_ratings f.responses).1 label).length)).sum)
    ∧ (aggregate files).all_effectiveness
        = ((sortFiles files).map (fun f => (extract_ratings f.responses).2)).flatten
    ∧ (aggregate files).all_beneficial
        = ((sortFiles files).map (fun f => (extract_comments f.responses).1)).flatten
    ∧ (aggregate files).all_improvement
        = ((sortFiles files).map (fun f => (extract_comments f.responses).2)).flatten := by
  have h := aggregateFold_apply (sortFiles files) initAgg
  refine ⟨?_, ?_, ?_, ?_⟩
  · intro label
    have h1 : (aggregate files).all_ratings label
        = ((sortFiles files).map (fun f => (extract_ratings f.responses).1 label)).flatten := by
      rw [aggregate, h.1 label]
      show [] ++ _ = _
      rw [List.nil_append]
    refine ⟨h1, ?_⟩
    rw [h1, List.length_flatten, List.map_map]
    rfl
  · rw [aggregate, h.2.1]
    show [] ++ _ = _
    rw [List.nil_append]
  · rw [aggregate, h.2.2.1]
    show [] ++ _ = _
    rw [List.nil_append]
  · rw [aggregate, h.2.2.2]
    show [] ++ _ = _
    rw [List.nil_append]

/-- Unfolding of the Boolean descending tuple comparison. -/
theorem rsGe_iff (a b : RankedStat) : rsGe a b = true ↔
    (b.1 < a.1 ∨ (b.1 = a.1 ∧ (b.2.1 < a.2.1 ∨ (b.2.1 = a.2.1 ∧
      (b.2.2.1 < a.2.2.1 ∨ (b.2.2.1 = a.2.2.1 ∧ b.2.2.2 ≤ a.2.2.2)))))) := by
  rw [rsGe]
  simp

/-- The descending tuple comparison is total. -/
theorem rsGe_total (a b : RankedStat) : (rsGe a b || rsGe b a) = true := by
  rw [Bool.or_eq_true, rsGe_iff, rsGe_iff]
  rcases lt_trichotomy b.1 a.1 with h1 | h1 | h1
  · exact Or.inl (Or.inl h1)
  · rcases lt_trichotomy b.2.1 a.2.1 with h2 | h2 | h2
    · exact Or.inl (Or.inr ⟨h1, Or.inl h2⟩)
    · rcases lt_trichotomy b.2.2.1 a.2.2.1 with h3 | h3 | h3
      · exact Or.inl (Or.inr ⟨h1, Or.inr ⟨h2, Or.inl h3⟩⟩)
      · rcases le_total b.2.2.2 a.2.2.2 with h4 | h4
        · exact Or.inl (Or.inr ⟨h1, Or.inr ⟨h2, Or.inr ⟨h3, h4⟩⟩⟩)
        · exact Or.inr (Or.inr ⟨h1.symm, Or.inr ⟨h2.symm, Or.inr ⟨h3.symm, h4⟩⟩⟩)
      · exact Or.inr (Or.inr ⟨h1.symm, Or.inr ⟨h2.symm, Or.inl h3⟩⟩)
    · exact Or.inr (Or.inr ⟨h1.symm, Or.inl h2⟩)
  · exact Or.inr (Or.inl h1)

/-- The descending tuple comparison is transitive. -/
theorem rsGe_trans (a b c : RankedStat) (hab : rsGe a b = true)
    (hbc : rsGe b c = true) : rsGe a c = true := by
  rw [rsGe_iff] at hab hbc ⊢
  rcases hab with h1 | ⟨e1, hab⟩
  · rcases hbc with h2 | ⟨e2, -⟩
    · exact Or.inl (h2.trans h1)
    · exact Or.inl (by rw [e2]; exact h1)
  · rcases hbc with h2 | ⟨e2, hbc⟩
    · exact Or.inl (by rw [← e1]; exact h2)
    · refine Or.inr ⟨e2.trans e1, ?_⟩
      rcases hab with h3 | ⟨f1, hab⟩
      · rcases hbc with h4 | ⟨f2, -⟩
        · exact Or.inl (h4.trans h3)
        · exact Or.inl (by rw [f2]; exact h3)
      · rcases hbc with h4 | ⟨f2, hbc⟩
        · exact Or.inl (by rw [← f1]; exact h4)
        · refine Or.inr ⟨f2.trans f1, ?_⟩
          rcases hab with h5 | ⟨g1, hab⟩
          · rcases hbc with h6 | ⟨g2, -⟩
            · exact Or.inl (h6.trans h5)
            · exact Or.inl (by rw [g2]; exact h5)
          · rcases hbc with h6 | ⟨g2, hbc⟩
            · exact Or.inl (by rw [← g1]; exact h6)
            · exact Or.inr ⟨g2.trans g1, hbc.trans hab⟩

/-- Every entry of the ranked list has a nonnegative spread component. -/
theorem rankedList_var_nonneg (allr : Ratings) :
    ∀ t ∈ rankedList allr, 0 ≤ t.2.1 := by
  rw [rankedList]
  have main : ∀ (qs : List String) (acc : List RankedStat),
      (∀ t ∈ acc, 0 ≤ t.2.1) →
      ∀ t ∈ qs.foldl (fun acc label =>
          if allr label ≠ [] then
            acc ++ [(meanQ ((allr label).map (fun v => (v : ℚ))),
                     sampleVar ((allr label).map (fun v => (v : ℚ))),
                     label, (allr label).length)]
          else acc) acc, 0 ≤ t.2.1 := by
    intro qs
    induction qs with
    | nil =>
      intro acc hacc
      simpa using hacc
    | cons q qs ih =>
      intro acc hacc
      rw [List.foldl_cons]
      apply ih
      by_cases hq : allr q ≠ []
      · rw [if_pos hq]
        intro t ht
        rcases List.mem_append.mp ht with h | h
        · exact hacc t h
        · simp only [List.mem_singleton] at h
          subst h
          exact sampleVar_nonneg _
      · rw [if_neg hq]
        exact hacc
  exact main _ [] (by simp)

/-- Claim C5: sorted_ratings is sorted in descending order of the mean, and when at
least six labels have non-empty aggregate series with pairwise distinct means, the
top-3 slice and the bottom-3 slice are disjoint. -/
theorem sorted_ratings_rank (allr : Ratings) :
    (sorted_ratings allr).Pairwise (fun a b => b.1 ≤ a.1)
    ∧ (6 ≤ (rankedList allr).length →
        (rankedList allr).Pairwise (fun a b => a.1 ≠ b.1) →
        ((sorted_ratings allr).take 3).Disjoint
          ((sorted_ratings allr).drop ((sorted_ratings allr).length - 3))) := by
  have hpair : (sorted_ratings allr).Pairwise (fun a b => rsGe a b = true) :=
    List.sorted_mergeSort rsGe_trans rsGe_total (rankedList allr)
  constructor
  · refine hpair.imp ?_
    intro a b h
    rw [rsGe_iff] at h
    rcases h with h | ⟨e, -⟩
    · exact le_of_lt h
    · exact le_of_eq e
  · intro h6 hdist
    have hperm : (sorted_ratings allr).Perm (rankedList allr) := List.mergeSort_perm _ _
    have hdist2 : (sorted_ratings allr).Pairwise (fun a b => a.1 ≠ b.1) :=
      (List.Perm.pairwise_iff (fun h => h.symm) hperm).mpr hdist
    have hnodup : (sorted_ratings allr).Nodup := by
      refine hdist2.imp ?_
      intro a b h e
      exact h (by rw [e])
    apply List.disjoint_take_drop hnodup
    have hlen := hperm.length_eq
    omega

/-- Witness for the ranking theorem at the concrete six-label table. -/
theorem sorted_ratings_rank_witness :
    ((sorted_ratings allr6).take 3).Disjoint
      ((sorted_ratings allr6).drop ((sorted_ratings allr6).length - 3)) :=
  (sorted_ratings_rank allr6).2 (by decide)
    (by simp [rankedList, questionLabelNames, QUESTION_LABELS, allr6, meanQ])

/-- Claim C10: the sort compares whole tuples descending — on equal means the entry
with the larger standard deviation (the square root of the stored variance) comes
first, on equal mean and deviation the lexicographically larger label comes first,
then the larger count; together with the permutation property this pins the order,
which is therefore not the declared label order nor the insertion order. -/
theorem sorted_ratings_tiebreak (allr : Ratings) :
    (sorted_ratings allr).Perm (rankedList allr)
    ∧ (sorted_ratings allr).Pairwise (fun a b =>
        b.1 < a.1 ∨ (b.1 = a.1 ∧
          (Real.sqrt ((b.2.1 : ℚ) : ℝ) < Real.sqrt ((a.2.1 : ℚ) : ℝ) ∨
            (Real.sqrt ((b.2.1 : ℚ) : ℝ) = Real.sqrt ((a.2.1 : ℚ) : ℝ) ∧
              (b.2.2.1 < a.2.2.1 ∨ (b.2.2.1 = a.2.2.1 ∧ b.2.2.2 ≤ a.2.2.2)))))) := by
  have hperm : (sorted_ratings allr).Perm (rankedList allr) := List.mergeSort_perm _ _
  refine ⟨hperm, ?_⟩
  have hpair : (sorted_ratings allr).Pairwise (fun a b => rsGe a b = true) :=
    List.sorted_mergeSort rsGe_trans rsGe_total (rankedList allr)
  refine List.Pairwise.imp_of_mem ?_ hpair
  intro a b ha hb h
  have hvb : (0 : ℚ) ≤ b.2.1 :=
    rankedList_var_nonneg allr b (hperm.mem_iff.mp hb)
  rw [rsGe_iff] at h
  rcases h with h1 | ⟨e1, h⟩
  · exact Or.inl h1
  · refine Or.inr ⟨e1, ?_⟩
    rcases h with h2 | ⟨e2, h⟩
    · refine Or.inl (Real.sqrt_lt_sqrt ?_ ?_)
      · exact_mod_cast hvb
      · exact_mod_cast h2
    · exact Or.inr ⟨by rw [e2], h⟩

/-- A digit character is not pattern whitespace. -/
theorem digit_not_space (c : Char) (h : isDigitP c = true) : isSpaceP c = false := by
  rw [isSpaceP]
  by_contra hcon
  rw [Bool.not_eq_false] at hcon
  have hcases : ((c = ' ' ∨ c = '\t') ∨ c = '\r') ∨ c = '\n' := by
    simpa [Char.isWhitespace] using hcon
  rcases hcases with ((rfl | rfl) | rfl) | rfl <;> exact absurd h (by decide)

/-- A pattern whitespace character is not a digit. -/
theorem space_not_digit (c : Char) (h : isSpaceP c = true) : isDigitP c = false := by
  rw [isSpaceP] at h
  have hcases : ((c = ' ' ∨ c = '\t') ∨ c = '\r') ∨ c = '\n' := by
    simpa [Char.isWhitespace] using h
  rcases hcases with ((rfl | rfl) | rfl) | rfl <;> decide

/-- takeWhile and dropWhile on an append whose first part satisfies p throughout
and whose remainder starts with a failing character. -/
theorem takeWhile_append_exact (p : Char → Bool) (w rest : List Char)
    (hall : w.all p = true) (hrest : ∀ c, rest.head? = some c → p c = false) :
    (w ++ rest).takeWhile p = w ∧ (w ++ rest).dropWhile p = rest := by
  induction w with
  | nil =>
    rw [List.nil_append]
    cases rest with
    | nil => simp
    | cons c t =>
      have hc := hrest c rfl
      rw [List.takeWhile_cons, List.dropWhile_cons, hc]
      simp
  | cons a w ih =>
    rw [List.all_cons, Bool.and_eq_true] at hall
    obtain ⟨ha, hall⟩ := hall
    obtain ⟨h1, h2⟩ := ih hall
    rw [List.cons_append, List.takeWhile_cons, List.dropWhile_cons, ha]
    simp only [if_true]
    exact ⟨by rw [h1], by rw [h2]⟩

/-- Soundness of maximal munch: a success decomposes the input. -/
theorem munch1_sound (p : Char → Bool) (s t r : List Char)
    (h : munch1 p s = some (t, r)) :
    s = t ++ r ∧ t ≠ [] ∧ t.all p = true ∧ ∀ c, r.head? = some c → p c = false := by
  rw [munch1] at h
  by_cases he : s.takeWhile p = []
  · rw [if_pos he] at h
    exact absurd h (by simp)
  · rw [if_neg he] at h
    simp only [Option.some.injEq, Prod.mk.injEq] at h
    obtain ⟨rfl, rfl⟩ := h
    refine ⟨(List.takeWhile_append_dropWhile p s).symm, he, List.all_takeWhile, ?_⟩
    intro c hc
    have := List.head?_dropWhile_not p s
    rw [hc] at this
    exact this

/-- Exactness of maximal munch on a delimited run. -/
theorem munch1_exact (p : Char → Bool) (w rest : List Char) (hw : w ≠ [])
    (hall : w.all p = true) (hrest : ∀ c, rest.head? = some c → p c = false) :
    munch1 p (w ++ rest) = some (w, rest) := by
  obtain ⟨h1, h2⟩ := takeWhile_append_exact p w rest hall hrest
  rw [munch1, h1, h2, if_neg hw]

/-- Success of maximal munch on any input beginning with a non-empty run. -/
theorem munch1_isSome (p : Char → Bool) (w rest : List Char) (hw : w ≠ [])
    (hall : w.all p = true) : (munch1 p (w ++ rest)).isSome = true := by
  cases w with
  | nil => exact absurd rfl hw
  | cons a w =>
    rw [List.all_cons, Bool.and_eq_true] at hall
    rw [munch1, List.cons_append, List.takeWhile_cons, hall.1]
    simp

/-- The head of a run of digits followed by anything is not whitespace. -/
theorem head_digit_not_space (d rest2 : List Char) (hd : d ≠ [])
    (hdp : d.all isDigitP = true) :
    ∀ c, (d ++ rest2).head? = some c → isSpaceP c = false := by
  intro c hc
  cases d with
  | nil => exact absurd rfl hd
  | cons a d =>
    rw [List.cons_append] at hc
    simp only [List.head?_cons, Option.some.injEq] at hc
    subst hc
    rw [List.all_cons, Bool.and_eq_true] at hdp
    exact digit_not_space _ hdp.1

/-- The head of a run of whitespace followed by anything is not a digit. -/
theorem head_space_not_digit (w rest2 : List Char) (hw : w ≠ [])
    (hwp : w.all isSpaceP = true) :
    ∀ c, (w ++ rest2).head? = some c → isDigitP c = false := by
  intro c hc
  cases w with
  | nil => exact absurd rfl hw
  | cons a w =>
    rw [List.cons_append] at hc
    simp only [List.head?_cons, Option.some.injEq] at hc
    subst hc
    rw [List.all_cons, Bool.and_eq_true] at hwp
    exact space_not_digit _ hwp.1

/-- Soundness of the tail matcher: a success yields a tail decomposition whose
captured groups are exactly the returned ones. -/
theorem matchTail_sound (t : List Char) (g : String × String)
    (h : matchTail t = some g) : tailDecomp t g.1.toList g.2.toList := by
  rw [matchTail] at h
  by_cases hp : ("CMSI".toList.isPrefixOf t) = true
  · rw [if_pos hp] at h
    rw [List.isPrefixOf_iff_prefix] at hp
    obtain ⟨s1, rfl⟩ := hp
    rw [show (4 : ℕ) = ("CMSI".toList : List Char).length from rfl, List.drop_left] at h
    rcases hm1 : munch1 isSpaceP s1 with _ | ⟨w2, s2⟩
    · rw [hm1] at h
      exact absurd h (by simp)
    · obtain ⟨he1, hw2ne, hw2all, -⟩ := munch1_sound _ _ _ _ hm1
      simp only [hm1] at h
      rcases hm2 : munch1 isDigitP s2 with _ | ⟨d1, s3⟩
      · rw [hm2] at h
        exact absurd h (by simp)
      · obtain ⟨he2, hd1ne, hd1all, -⟩ := munch1_sound _ _ _ _ hm2
        simp only [hm2] at h
        rcases hm3 : munch1 isSpaceP s3 with _ | ⟨w3, s4⟩
        · rw [hm3] at h
          exact absurd h (by simp)
        · obtain ⟨he3, hw3ne, hw3all, -⟩ := munch1_sound _ _ _ _ hm3
          simp only [hm3] at h
          rcases hm4 : munch1 isDigitP s4 with _ | ⟨d2, s5⟩
          · rw [hm4] at h
            exact absurd h (by simp)
          · obtain ⟨he4, hd2ne, hd2all, -⟩ := munch1_sound _ _ _ _ hm4
            simp only [hm4] at h
            simp only [Option.some.injEq] at h
            subst h
            refine ⟨w2, d1, w3, d2, s5, ?_, hw2ne, hw2all, hd1ne, hd1all,
              hw3ne, hw3all, hd2ne, hd2all, rfl, rfl⟩
            rw [he1, he2, he3, he4]
            simp [List.append_assoc]
  · rw [if_neg hp] at h
    exact absurd h (by simp)

/-- Completeness of the tail matcher: any tail decomposition makes it succeed. -/
theorem matchTail_isSome (t course sect : List Char) (h : tailDecomp t course sect) :
    (matchTail t).isSome = true := by
  obtain ⟨w2, d1, w3, d2, rest, rfl, hw2, hw2p, hd1, hd1p, hw3, hw3p, hd2, hd2p, -, -⟩ := h
  have hassoc : "CMSI".toList ++ w2 ++ d1 ++ w3 ++ d2 ++ rest
      = "CMSI".toList ++ (w2 ++ (d1 ++ (w3 ++ (d2 ++ rest)))) := by
    simp [List.append_assoc]
  rw [hassoc, matchTail]
  have hpre : ("CMSI".toList.isPrefixOf
      ("CMSI".toList ++ (w2 ++ (d1 ++ (w3 ++ (d2 ++ rest)))))) = true := by
    rw [List.isPrefixOf_iff_prefix]
    exact ⟨_, rfl⟩
  rw [if_pos hpre,
    show (4 : ℕ) = ("CMSI".toList : List Char).length from rfl, List.drop_left]
  have hm1 : munch1 isSpaceP (w2 ++ (d1 ++ (w3 ++ (d2 ++ rest))))
      = some (w2, d1 ++ (w3 ++ (d2 ++ rest))) :=
    munch1_exact _ _ _ hw2 hw2p (head_digit_not_space _ _ hd1 hd1p)
  simp only [hm1]
  have hm2 : munch1 isDigitP (d1 ++ (w3 ++ (d2 ++ rest)))
      = some (d1, w3 ++ (d2 ++ rest)) :=
    munch1_exact _ _ _ hd1 hd1p (head_space_not_digit _ _ hw3 hw3p)
  simp only [hm2]
  have hm3 : munch1 isSpaceP (w3 ++ (d2 ++ rest)) = some (w3, d2 ++ rest) :=
    munch1_exact _ _ _ hw3 hw3p (head_digit_not_space _ _ hd2 hd2p)
  simp only [hm3]
  have h4 := munch1_isSome isDigitP d2 rest hd2 hd2p
  rcases hm4 : munch1 isDigitP (d2 ++ rest) with _ | ⟨x, y⟩
  · rw [hm4] at h4
    simp at h4
  · simp

/-- Soundness of the lazy gap search: a success splits off a newline-free gap
after which the tail matches. -/
theorem searchTail_sound (s : List Char) :
    ∀ g, searchTail s = some g →
      ∃ mid t, s = mid ++ t ∧ mid.all (fun c => decide (c ≠ '\n')) = true ∧
        matchTail t = some g := by
  induction s with
  | nil =>
    intro g h
    rw [searchTail] at h
    rcases hm : matchTail [] with _ | g2
    · rw [hm] at h
      exact absurd h (by simp)
    · rw [hm] at h
      simp only [Option.some.injEq] at h
      subst h
      exact ⟨[], [], rfl, rfl, hm⟩
  | cons c rest ih =>
    intro g h
    rw [searchTail] at h
    rcases hm : matchTail (c :: rest) with _ | g2
    · rw [hm] at h
      by_cases hc : c = '\n'
      · rw [if_pos hc] at h
        exact absurd h (by simp)
      · rw [if_neg hc] at h
        obtain ⟨mid, t, he, hmid, hmt⟩ := ih g h
        refine ⟨c :: mid, t, by rw [List.cons_append, he], ?_, hmt⟩
        rw [List.all_cons, Bool.and_eq_true]
        exact ⟨by simpa using hc, hmid⟩
    · rw [hm] at h
      simp only [Option.some.injEq] at h
      subst h
      exact ⟨[], c :: rest, rfl, rfl, hm⟩

/-- A position where the tail matches is found by the gap search. -/
theorem searchTail_of_matchTail (s : List Char) (h : (matchTail s).isSome = true) :
    (searchTail s).isSome = true := by
  cases s with
  | nil =>
    rw [searchTail]
    rcases hm : matchTail [] with _ | g
    · rw [hm] at h
      simp at h
    · simp
  | cons c rest =>
    rw [searchTail]
    rcases hm : matchTail (c :: rest) with _ | g
    · rw [hm] at h
      simp at h
    · simp

/-- Completeness of the lazy gap search. -/
theorem searchTail_isSome (mid t : List Char)
    (hmid : mid.all (fun c => decide (c ≠ '\n')) = true)
    (ht : (matchTail t).isSome = true) : (searchTail (mid ++ t)).isSome = true := by
  induction mid with
  | nil =>
    rw [List.nil_append]
    exact searchTail_of_matchTail t ht
  | cons c mid ih =>
    rw [List.all_cons, Bool.and_eq_true] at hmid
    obtain ⟨hc, hmid⟩ := hmid
    rw [List.cons_append, searchTail]
    rcases hm : matchTail (c :: (mid ++ t)) with _ | g
    · rw [if_neg (by simpa using hc)]
      exact ih hmid
    · simp

/-- Soundness of the semester alternation. -/
theorem matchSemAt_sound (s : List Char) (sem : String) (s1 : List Char)
    (h : matchSemAt s = some (sem, s1)) :
    semWord sem.toList ∧ s = sem.toList ++ s1 := by
  rw [matchSemAt] at h
  by_cases h1 : ("Spring".toList.isPrefixOf s) = true
  · rw [if_pos h1] at h
    simp only [Option.some.injEq, Prod.mk.injEq] at h
    obtain ⟨rfl, rfl⟩ := h
    rw [List.isPrefixOf_iff_prefix] at h1
    obtain ⟨tail, rfl⟩ := h1
    refine ⟨Or.inl rfl, ?_⟩
    rw [show (6 : ℕ) = ("Spring".toList : List Char).length from rfl, List.drop_left]
  · rw [if_neg h1] at h
    by_cases h2 : ("Fall".toList.isPrefixOf s) = true
    · rw [if_pos h2] at h
      simp only [Option.some.injEq, Prod.mk.injEq] at h
      obtain ⟨rfl, rfl⟩ := h
      rw [List.isPrefixOf_iff_prefix] at h2
      obtain ⟨tail, rfl⟩ := h2
      refine ⟨Or.inr (Or.inl rfl), ?_⟩
      rw [show (4 : ℕ) = ("Fall".toList : List Char).length from rfl, List.drop_left]
    · rw [if_neg h2] at h
      by_cases h3 : ("Summer".toList.isPrefixOf s) = true
      · rw [if_pos h3] at h
        simp only [Option.some.injEq, Prod.mk.injEq] at h
        obtain ⟨rfl, rfl⟩ := h
        rw [List.isPrefixOf_iff_prefix] at h3
        obtain ⟨tail, rfl⟩ := h3
        refine ⟨Or.inr (Or.inr rfl), ?_⟩
        rw [show (6 : ℕ) = ("Summer".toList : List Char).length from rfl, List.drop_left]
      · rw [if_neg h3] at h
        exact absurd h (by simp)

/-- Completeness of the semester alternation: on a semester word the matcher
commits to exactly that word. -/
theorem matchSemAt_complete (sem rest : List Char) (hsem : semWord sem) :
    ∃ semS : String, matchSemAt (sem ++ rest) = some (semS, rest) ∧ semS.toList = sem := by
  rcases hsem with rfl | rfl | rfl
  · refine ⟨"Spring", ?_, rfl⟩
    rw [matchSemAt]
    have hp : ("Spring".toList.isPrefixOf ("Spring".toList ++ rest)) = true := by
      rw [List.isPrefixOf_iff_prefix]
      exact ⟨rest, rfl⟩
    rw [if_pos hp,
      show (6 : ℕ) = ("Spring".toList : List Char).length from rfl, List.drop_left]
  · refine ⟨"Fall", ?_, rfl⟩
    rw [matchSemAt]
    have hnp : ("Spring".toList.isPrefixOf ("Fall".toList ++ rest)) = false := rfl
    rw [if_neg (by simp [hnp])]
    have hp : ("Fall".toList.isPrefixOf ("Fall".toList ++ rest)) = true := by
      rw [List.isPrefixOf_iff_prefix]
      exact ⟨rest, rfl⟩
    rw [if_pos hp,
      show (4 : ℕ) = ("Fall".toList : List Char).length from rfl, List.drop_left]
  · refine ⟨"Summer", ?_, rfl⟩
    rw [matchSemAt]
    have hnp : ("Spring".toList.isPrefixOf ("Summer".toList ++ rest)) = false := rfl
    rw [if_neg (by simp [hnp])]
    have hnp2 : ("Fall".toList.isPrefixOf ("Summer".toList ++ rest)) = false := rfl
    rw [if_neg (by simp [hnp2])]
    have hp : ("Summer".toList.isPrefixOf ("Summer".toList ++ rest)) = true := by
      rw [List.isPrefixOf_iff_prefix]
      exact ⟨rest, rfl⟩
    rw [if_pos hp,
      show (6 : ℕ) = ("Summer".toList : List Char).length from rfl, List.drop_left]

/-- Soundness of the anchored pattern matcher: a success decomposes the input from
its start and the returned groups are the matched pieces. -/
theorem matchAt_sound (s : List Char) (g : String × String × String × String)
    (h : matchAt s = some g) :
    ∃ sem w1 y mid t,
      s = sem ++ (w1 ++ (y ++ (mid ++ t))) ∧ semWord sem ∧ w1 ≠ [] ∧
      w1.all isSpaceP = true ∧ y.length = 4 ∧ y.all isDigitP = true ∧
      mid.all (fun c => decide (c ≠ '\n')) = true ∧
      tailDecomp t g.2.2.1.toList g.2.2.2.toList ∧
      g.1.toList = sem ∧ g.2.1.toList = y := by
  rw [matchAt] at h
  rcases hsem : matchSemAt s with _ | ⟨sem, s1⟩
  · rw [hsem] at h
    exact absurd h (by simp)
  · obtain ⟨hsw, hse⟩ := matchSemAt_sound s sem s1 hsem
    simp only [hsem] at h
    rcases hm1 : munch1 isSpaceP s1 with _ | ⟨w1, s2⟩
    · rw [hm1] at h
      exact absurd h (by simp)
    · obtain ⟨he1, hw1ne, hw1all, -⟩ := munch1_sound _ _ _ _ hm1
      simp only [hm1] at h
      by_cases hy : (s2.take 4).length = 4 ∧ ((s2.take 4).all isDigitP = true)
      · rw [if_pos hy] at h
        rcases hst : searchTail (s2.drop 4) with _ | ⟨course, sect⟩
        · rw [hst] at h
          exact absurd h (by simp)
        · obtain ⟨mid, t, he2, hmid, hmt⟩ := searchTail_sound _ _ hst
          simp only [hst, Option.some.injEq] at h
          subst h
          refine ⟨sem.toList, w1, s2.take 4, mid, t, ?_, hsw, hw1ne, hw1all,
            hy.1, hy.2, hmid, matchTail_sound _ _ hmt, rfl, rfl⟩
          rw [← he2, List.take_append_drop, ← he1]
          exact hse
      · rw [if_neg hy] at h
        exact absurd h (by simp)

/-- Completeness of the anchored pattern matcher. -/
theorem matchAt_isSome (sem w1 y mid t : List Char) (hsem : semWord sem)
    (hw1 : w1 ≠ []) (hw1p : w1.all isSpaceP = true) (hy : y.length = 4)
    (hyp : y.all isDigitP = true) (hmid : mid.all (fun c => decide (c ≠ '\n')) = true)
    (course sect : List Char) (ht : tailDecomp t course sect) :
    (matchAt (sem ++ (w1 ++ (y ++ (mid ++ t))))).isSome = true := by
  obtain ⟨semS, hms, hsl⟩ := matchSemAt_complete sem (w1 ++ (y ++ (mid ++ t))) hsem
  rw [matchAt]
  simp only [hms]
  have hynil : y ≠ [] := by
    intro e
    rw [e] at hy
    simp at hy
  have hm1 : munch1 isSpaceP (w1 ++ (y ++ (mid ++ t))) = some (w1, y ++ (mid ++ t)) :=
    munch1_exact _ _ _ hw1 hw1p (head_digit_not_space _ _ hynil hyp)
  simp only [hm1]
  have htake : (y ++ (mid ++ t)).take 4 = y := by
    rw [← hy, List.take_left]
  have hdrop : (y ++ (mid ++ t)).drop 4 = mid ++ t := by
    rw [← hy, List.drop_left]
  rw [htake, hdrop, if_pos ⟨hy, hyp⟩]
  have hsome := searchTail_isSome mid t hmid (matchTail_isSome t course sect ht)
  rcases hst : searchTail (mid ++ t) with _ | g
  · rw [hst] at hsome
    simp at hsome
  · simp

/-- A position where the pattern matches is found by the search. -/
theorem reSearch_of_matchAt (s : List Char) (h : (matchAt s).isSome = true) :
    (reSearch s).isSome = true := by
  cases s with
  | nil =>
    rw [reSearch]
    rcases hm : matchAt [] with _ | g
    · rw [hm] at h
      simp at h
    · simp
  | cons c rest =>
    rw [reSearch]
    rcases hm : matchAt (c :: rest) with _ | g
    · rw [hm] at h
      simp at h
    · simp

/-- Completeness of the left-to-right search. -/
theorem reSearch_isSome (pre suf : List Char) (h : (matchAt suf).isSome = true) :
    (reSearch (pre ++ suf)).isSome = true := by
  induction pre with
  | nil =>
    rw [List.nil_append]
    exact reSearch_of_matchAt suf h
  | cons c pre ih =>
    rw [List.cons_append, reSearch]
    rcases hm : matchAt (c :: (pre ++ suf)) with _ | g
    · exact ih
    · simp

/-- Soundness of the left-to-right search. -/
theorem reSearch_sound (s : List Char) :
    ∀ g, reSearch s = some g → ∃ pre suf, s = pre ++ suf ∧ matchAt suf = some g := by
  induction s with
  | nil =>
    intro g h
    rw [reSearch] at h
    rcases hm : matchAt [] with _ | g2
    · rw [hm] at h
      exact absurd h (by simp)
    · rw [hm] at h
      simp only [Option.some.injEq] at h
      subst h
      exact ⟨[], [], rfl, hm⟩
  | cons c rest ih =>
    intro g h
    rw [reSearch] at h
    rcases hm : matchAt (c :: rest) with _ | g2
    · rw [hm] at h
      obtain ⟨pre, suf, he, hma⟩ := ih g h
      exact ⟨c :: pre, suf, by rw [List.cons_append, he], hma⟩
    · rw [hm] at h
      simp only [Option.some.injEq] at h
      subst h
      exact ⟨[], c :: rest, rfl, hm⟩

/-- Any search success certifies pattern containment. -/
theorem containsPattern_of_reSearch (s : List Char)
    (g : String × String × String × String) (h : reSearch s = some g) :
    containsPattern s := by
  obtain ⟨pre, suf, rfl, hma⟩ := reSearch_sound s g h
  obtain ⟨sem, w1, y, mid, t, he, hsw, hw1, hw1p, hy, hyp, hmid, ht, -, -⟩ :=
    matchAt_sound suf g hma
  refine ⟨pre, sem, w1, y, mid, t, ?_, hsw, hw1, hw1p, hy, hyp, hmid,
    g.2.2.1.toList, g.2.2.2.toList, ht⟩
  rw [he]
  simp [List.append_assoc]

/-- Pattern containment makes the search succeed. -/
theorem reSearch_of_containsPattern (s : List Char) (h : containsPattern s) :
    (reSearch s).isSome = true := by
  obtain ⟨pre, sem, w1, y, mid, t, rfl, hsw, hw1, hw1p, hy, hyp, hmid,
    course, sect, ht⟩ := h
  have hm := matchAt_isSome sem w1 y mid t hsw hw1 hw1p hy hyp hmid course sect ht
  have hassoc : pre ++ sem ++ w1 ++ y ++ mid ++ t
      = pre ++ (sem ++ (w1 ++ (y ++ (mid ++ t)))) := by
    simp [List.append_assoc]
  rw [hassoc]
  exact reSearch_isSome pre _ hm

/-- Claim C8: parse_course_info returns, for any filename containing the pattern,
the triple built from an actual occurrence — "semester year", the CMSI course
group, and the digit section — and the sentinel triple ("Unknown", "Unknown",
"00") for any filename not containing it, never failing; the concrete example
filename yields ("Fall 2025", "CMSI 186", "02"). -/
theorem parse_course_info_spec :
    (∀ f : String, ¬containsPattern f.toList →
        parse_course_info f = ("Unknown", "Unknown", "00"))
    ∧ (∀ f : String, containsPattern f.toList →
        ∃ pre sem w1 y mid w2 d1 w3 d2 rest,
          f.toList = pre ++ sem ++ w1 ++ y ++ mid ++
            ("CMSI".toList ++ w2 ++ d1 ++ w3 ++ d2 ++ rest) ∧
          semWord sem ∧ w1 ≠ [] ∧ w1.all isSpaceP = true ∧
          y.length = 4 ∧ y.all isDigitP = true ∧
          mid.all (fun c => decide (c ≠ '\n')) = true ∧
          w2 ≠ [] ∧ w2.all isSpaceP = true ∧ d1 ≠ [] ∧ d1.all isDigitP = true ∧
          w3 ≠ [] ∧ w3.all isSpaceP = true ∧ d2 ≠ [] ∧ d2.all isDigitP = true ∧
          parse_course_info f
            = (⟨sem⟩ ++ " " ++ ⟨y⟩, ⟨"CMSI".toList ++ w2 ++ d1⟩, ⟨d2⟩))
    ∧ parse_course_info "Coleman Jared Fall 2025 Course Evaluations CMSI 186 02.csv"
        = ("Fall 2025", "CMSI 186", "02") := by
  refine ⟨?_, ?_, by decide⟩
  · intro f hncp
    rw [parse_course_info]
    rcases hr : reSearch f.toList with _ | g
    · rfl
    · exact absurd (containsPattern_of_reSearch _ _ hr) hncp
  · intro f hcp
    have hsome := reSearch_of_containsPattern _ hcp
    rcases hr : reSearch f.toList with _ | g
    · rw [hr] at hsome
      simp at hsome
    · obtain ⟨pre, suf, hes, hma⟩ := reSearch_sound _ _ hr
      obtain ⟨sem, w1, y, mid, t, he, hsw, hw1, hw1p, hy, hyp, hmid, ht, hg1, hg2⟩ :=
        matchAt_sound suf g hma
      obtain ⟨w2, d1, w3, d2, rest2, hte, hw2, hw2p, hd1, hd1p, hw3, hw3p,
        hd2, hd2p, hc, hs⟩ := ht
      refine ⟨pre, sem, w1, y, mid, w2, d1, w3, d2, rest2, ?_, hsw, hw1, hw1p,
        hy, hyp, hmid, hw2, hw2p, hd1, hd1p, hw3, hw3p, hd2, hd2p, ?_⟩
      · rw [hes, he, hte]
        simp [List.append_assoc]
      · rw [parse_course_info]
        simp only [hr]
        rw [← hg1, ← hg2, ← hc, ← hs]
        rfl

/-- A string containing the pattern has at least 17 characters. -/
theorem containsPattern_length (s : List Char) (h : containsPattern s) :
    17 ≤ s.length := by
  obtain ⟨pre, sem, w1, y, mid, t, rfl, hsw, hw1, -, hy, -, -, course, sect, ht⟩ := h
  obtain ⟨w2, d1, w3, d2, rest2, rfl, hw2, -, hd1, -, hw3, -, hd2, -, -, -⟩ := ht
  have h1 : 4 ≤ sem.length := by
    rcases hsw with rfl | rfl | rfl <;> decide
  have h2 : 0 < w1.length := List.length_pos.mpr hw1
  have h3 : 0 < w2.length := List.length_pos.mpr hw2
  have h4 : 0 < d1.length := List.length_pos.mpr hd1
  have h5 : 0 < w3.length := List.length_pos.mpr hw3
  have h6 : 0 < d2.length := List.length_pos.mpr hd2
  have hcm : ("CMSI".toList : List Char).length = 4 := rfl
  simp only [List.length_append]
  omega

/-- Witness for the filename parser theorem: a short name without the pattern
yields the sentinel, and the concrete matching name yields its matched pieces. -/
theorem parse_course_info_spec_witness :
    parse_course_info "a.csv" = ("Unknown", "Unknown", "00")
    ∧ (∃ pre sem w1 y mid w2 d1 w3 d2 rest,
        ("Coleman Jared Fall 2025 Course Evaluations CMSI 186 02.csv" : String).toList
            = pre ++ sem ++ w1 ++ y ++ mid ++
              ("CMSI".toList ++ w2 ++ d1 ++ w3 ++ d2 ++ rest) ∧
          semWord sem ∧ w1 ≠ [] ∧ w1.all isSpaceP = true ∧
          y.length = 4 ∧ y.all isDigitP = true ∧
          mid.all (fun c => decide (c ≠ '\n')) = true ∧
          w2 ≠ [] ∧ w2.all isSpaceP = true ∧ d1 ≠ [] ∧ d1.all isDigitP = true ∧
          w3 ≠ [] ∧ w3.all isSpaceP = true ∧ d2 ≠ [] ∧ d2.all isDigitP = true ∧
          parse_course_info "Coleman Jared Fall 2025 Course Evaluations CMSI 186 02.csv"
            = (⟨sem⟩ ++ " " ++ ⟨y⟩, ⟨"CMSI".toList ++ w2 ++ d1⟩, ⟨d2⟩)) :=
  ⟨parse_course_info_spec.1 "a.csv"
      (fun h => absurd (containsPattern_length _ h) (by decide)),
   parse_course_info_spec.2.1 "Coleman Jared Fall 2025 Course Evaluations CMSI 186 02.csv"
      ⟨"Coleman Jared ".toList, "Fall".toList, " ".toList, "2025".toList,
       " Course Evaluations ".toList, "CMSI 186 02.csv".toList,
       by decide, Or.inr (Or.inl rfl), by decide, by decide, by decide, by decide,
       by decide, "CMSI 186".toList, "02".toList,
       ⟨" ".toList, "186".toList, " ".toList, "02".toList, ".csv".toList,
        by decide, by decide, by decide, by decide, by decide, by decide, by decide,
        by decide, by decide, by decide, by decide⟩⟩⟩
